import Mathlib

/-!
Verification of the BPE tokenizer of this repository
(`examples/bpe_tokenizer.py`): the encoder `bpe_encode`, the pair counter
`count_pairs` and the trainer `build_vocab`, together with the
specification-level recursive descriptions of the two scanning passes.

Tokens are machine integers that never overflow in the source (they are
byte values `0..255` or `256 + rank`), so they are embedded as `Nat`.
Python's insertion-ordered `dict` used by `count_pairs` is embedded as an
association list that preserves first-insertion order; the `merge_rank`
dict is embedded as a partial function built by enumeration, later
assignments overwriting earlier ones.
-/

namespace BPE

/-- UTF-8 byte values of a string, one `Nat` per byte: the embedding of
Python's `list(text.encode("utf-8"))`. `String.utf8EncodeChar` is the
UTF-8 encoding of a single character. -/
def utf8Bytes (s : String) : List Nat :=
  (s.data.flatMap String.utf8EncodeChar).map UInt8.toNat

/-- Adjacent pairs of `a :: l` in left-to-right order, `a` being the token
just before `l`. -/
def pairListAux (a : Nat) : List Nat → List (Nat × Nat)
  | [] => []
  | b :: rest => (a, b) :: pairListAux b rest

/-- The list of adjacent pairs `(tokens[i], tokens[i+1])` for
`i in range(len(tokens) - 1)`, in scanning order. -/
def pairList : List Nat → List (Nat × Nat)
  | [] => []
  | a :: rest => pairListAux a rest

/-- One `counts[pair] = counts.get(pair, 0) + 1` update on an
insertion-ordered association list: an existing key keeps its position and
gets its count incremented, a new key is appended at the end, exactly as a
Python dict behaves. -/
def bump : List ((Nat × Nat) × Nat) → (Nat × Nat) → List ((Nat × Nat) × Nat)
  | [], p => [(p, 1)]
  | (q, c) :: rest, p =>
    if q = p then (q, c + 1) :: rest else (q, c) :: bump rest p

/-- `count_pairs` of the source: count all adjacent pairs of a token list
into a mapping that preserves first-insertion order. -/
def count_pairs (tokens : List Nat) : List ((Nat × Nat) × Nat) :=
  (pairList tokens).foldl bump []

/-- First-match association lookup (keys of the lists we build are unique). -/
def lookupA : List ((Nat × Nat) × Nat) → (Nat × Nat) → Option Nat
  | [], _ => none
  | (q, c) :: rest, p => if q = p then some c else lookupA rest p

/-- The keys of an association list, in stored order. -/
def keysA (l : List ((Nat × Nat) × Nat)) : List (Nat × Nat) :=
  l.map Prod.fst

/-- Sum of the stored counts. -/
def sumVals (l : List ((Nat × Nat) × Nat)) : Nat :=
  (l.map Prod.snd).sum

/-- Number of occurrences of `q` in a list of pairs. -/
def countOcc (q : Nat × Nat) : List (Nat × Nat) → Nat
  | [] => 0
  | p :: rest => (if p = q then 1 else 0) + countOcc q rest

/-- Index of the first occurrence of `q` (length of the list when absent). -/
def firstIdx (q : Nat × Nat) : List (Nat × Nat) → Nat
  | [] => 0
  | p :: rest => if p = q then 0 else firstIdx q rest + 1

/-- The keys of `ps` not yet in `seen`, in first-occurrence order. -/
def newKeys (seen : List (Nat × Nat)) : List (Nat × Nat) → List (Nat × Nat)
  | [] => []
  | p :: ps => if p ∈ seen then newKeys seen ps else p :: newKeys (p :: seen) ps

/-- Python's `max(counts, key=lambda p: counts[p])` over an
insertion-ordered mapping: iterate in stored order and replace the current
best `(p, c)` only on a strictly greater count, so among equal maxima the
first-inserted key wins. -/
def pickBest : (Nat × Nat) → Nat → List ((Nat × Nat) × Nat) → Nat × Nat
  | p, _, [] => p
  | p, c, (q, d) :: rest => if c < d then pickBest q d rest else pickBest p c rest

/-- The selected pair of one training iteration (`none` on an empty
mapping, where the source breaks out of the loop instead). -/
def maxPair : List ((Nat × Nat) × Nat) → Option (Nat × Nat)
  | [] => none
  | (p, c) :: rest => some (pickBest p c rest)

/-- Python's `enumerate`, starting at index `i`. -/
def enumFrom (i : Nat) : List (Nat × Nat) → List (Nat × (Nat × Nat))
  | [] => []
  | p :: rest => (i, p) :: enumFrom (i + 1) rest

/-- The `merge_rank` dict of `bpe_encode`: pair to rank, built by
`for rank, pair in enumerate(merges)`, later assignments overwriting
earlier ones. -/
def merge_rank (merges : List (Nat × Nat)) : (Nat × Nat) → Option Nat :=
  (enumFrom 0 merges).foldl
    (fun f rp => fun q => if q = rp.2 then some rp.1 else f q)
    (fun _ => none)

/-- Specification-level description of the encoder's inner scanning pass,
from the token `a` at the current scan position onward: when the pair at
the scan position is in the lookup, replace it by `256 + rank` and do not
advance (the new token is immediately reconsidered against its right
neighbour); otherwise advance one position. The boolean records whether
the pass performed at least one merge. -/
def mergePassAux (mr : (Nat × Nat) → Option Nat) : Nat → List Nat → List Nat × Bool
  | a, [] => ([a], false)
  | a, b :: rest =>
    match mr (a, b) with
    | some r => ((mergePassAux mr (256 + r) rest).1, true)
    | none => ((a :: (mergePassAux mr b rest).1), (mergePassAux mr b rest).2)

/-- One full positional-greedy left-to-right pass over a token sequence. -/
def mergePass (mr : (Nat × Nat) → Option Nat) : List Nat → List Nat × Bool
  | [] => ([], false)
  | a :: rest => mergePassAux mr a rest

/-- The source's inner `while i < len(tokens) - 1` loop of `bpe_encode`,
with its in-place mutation: on a hit, `tokens[i] = 256 + rank` followed by
`tokens.pop(i + 1)`, keeping `i` unchanged; on a miss, `i += 1`. Returns
the mutated list and the `changed` flag. -/
def innerLoop (mr : (Nat × Nat) → Option Nat) (tokens : List Nat) (i : Nat)
    (changed : Bool) : List Nat × Bool :=
  if _h : i < tokens.length - 1 then
    match mr (tokens.getD i 0, tokens.getD (i + 1) 0) with
    | some r => innerLoop mr ((tokens.set i (256 + r)).eraseIdx (i + 1)) i true
    | none => innerLoop mr tokens (i + 1) changed
  else (tokens, changed)
termination_by tokens.length - i
decreasing_by
  · have hs : ((tokens.set i (256 + r)).eraseIdx (i + 1)).length
        = tokens.length - 1 := by
      rw [List.length_eraseIdx_of_lt (by rw [List.length_set]; omega),
        List.length_set]
    omega
  · omega

/-- The source's outer `while changed` loop of `bpe_encode`, run with
explicit fuel: with any fuel exceeding the pass-count bound (established
below) the fuel is never exhausted, and the returned sequence is the exact
fixed point at which the source loop stops. -/
def encodeLoop (mr : (Nat × Nat) → Option Nat) : Nat → List Nat → List Nat
  | 0, tokens => tokens
  | fuel + 1, tokens =>
    if (innerLoop mr tokens 0 false).2 then
      encodeLoop mr fuel (innerLoop mr tokens 0 false).1
    else (innerLoop mr tokens 0 false).1

/-- `bpe_encode` of the source: UTF-8 bytes, then repeated full passes
until a pass performs no merge. Fuel `initial_length + 1` strictly exceeds
the number of passes the loop can make. -/
def bpe_encode (text : String) (merges : List (Nat × Nat)) : List Nat :=
  encodeLoop (merge_rank merges) ((utf8Bytes text).length + 1) (utf8Bytes text)

/-- Number of executions of the outer loop body of `bpe_encode` (each one
is one full pass over the current sequence). -/
def passCountLoop (mr : (Nat × Nat) → Option Nat) : Nat → List Nat → Nat
  | 0, _ => 0
  | fuel + 1, tokens =>
    if (innerLoop mr tokens 0 false).2 then
      passCountLoop mr fuel (innerLoop mr tokens 0 false).1 + 1
    else 1

/-- Pass count of a full `bpe_encode` run. -/
def bpe_pass_count (text : String) (merges : List (Nat × Nat)) : Nat :=
  passCountLoop (merge_rank merges) ((utf8Bytes text).length + 1) (utf8Bytes text)

/-- Specification-level twin of `encodeLoop`, over `mergePass`. -/
def encodeLoopSpec (mr : (Nat × Nat) → Option Nat) : Nat → List Nat → List Nat
  | 0, tokens => tokens
  | fuel + 1, tokens =>
    if (mergePass mr tokens).2 then encodeLoopSpec mr fuel (mergePass mr tokens).1
    else (mergePass mr tokens).1

/-- Specification-level twin of `passCountLoop`, over `mergePass`. -/
def passCountSpec (mr : (Nat × Nat) → Option Nat) : Nat → List Nat → Nat
  | 0, _ => 0
  | fuel + 1, tokens =>
    if (mergePass mr tokens).2 then passCountSpec mr fuel (mergePass mr tokens).1 + 1
    else 1

/-- Specification-level description of the trainer's rewrite pass, from
the token `a` at the current position onward: where the winning pair
starts, emit the new id and advance two positions; otherwise copy one
token and advance one position (single left-to-right non-overlapping
pass). -/
def replaceAllAux (best : Nat × Nat) (new_id : Nat) : Nat → List Nat → List Nat
  | a, [] => [a]
  | a, b :: rest =>
    if (a, b) = best then
      new_id :: (match rest with
        | [] => []
        | c :: rest2 => replaceAllAux best new_id c rest2)
    else
      a :: replaceAllAux best new_id b rest

/-- Replace every non-overlapping occurrence of `best`, leftmost first. -/
def replaceAll (best : Nat × Nat) (new_id : Nat) : List Nat → List Nat
  | [] => []
  | a :: rest => replaceAllAux best new_id a rest

/-- The source's rewrite loop in step 5 of `build_vocab` (`while i <
len(tokens)` building `new_tokens`): guarded lookahead
`i < len(tokens) - 1 and (tokens[i], tokens[i+1]) == best`. -/
def rewriteLoop (best : Nat × Nat) (new_id : Nat) (tokens : List Nat) (i : Nat)
    (new_tokens : List Nat) : List Nat :=
  if _h : i < tokens.length then
    if i < tokens.length - 1 ∧ (tokens.getD i 0, tokens.getD (i + 1) 0) = best then
      rewriteLoop best new_id tokens (i + 2) (new_tokens ++ [new_id])
    else
      rewriteLoop best new_id tokens (i + 1) (new_tokens ++ [tokens.getD i 0])
  else new_tokens
termination_by tokens.length - i
decreasing_by
  · omega
  · omega

/-- The training loop of `build_vocab`, carrying its state (current token
sequence, merge rules learned so far); the budget counts the remaining
`for _ in range(num_merges)` iterations. An empty pair mapping stops the
loop early. The new id is `256 + len(merges) - 1` measured after the
append, as in the source. -/
def trainAux : Nat → List Nat → List (Nat × Nat) → List Nat × List (Nat × Nat)
  | 0, tokens, merges => (tokens, merges)
  | n + 1, tokens, merges =>
    match count_pairs tokens with
    | [] => (tokens, merges)
    | (p, c) :: rest =>
      let best := pickBest p c rest
      let merges2 := merges ++ [best]
      let new_id := 256 + merges2.length - 1
      trainAux n (rewriteLoop best new_id tokens 0 []) merges2

/-- `build_vocab` of the source: greedily merge the most frequent pair
`num_merges` times, returning the learned merge rules in order. -/
def build_vocab (text : String) (num_merges : Nat) : List (Nat × Nat) :=
  (trainAux num_merges (utf8Bytes text) []).2

/-- Specification-level twin of `trainAux`, over `replaceAll`; the new id
is written as `256 + merges.length` (the length before the append), which
is the same number. -/
def trainAuxSpec : Nat → List Nat → List (Nat × Nat) → List Nat × List (Nat × Nat)
  | 0, tokens, merges => (tokens, merges)
  | n + 1, tokens, merges =>
    match count_pairs tokens with
    | [] => (tokens, merges)
    | (p, c) :: rest =>
      trainAuxSpec n
        (replaceAll (pickBest p c rest) (256 + merges.length) tokens)
        (merges ++ [pickBest p c rest])

/-! Basic facts about bytes and adjacent pairs. -/

theorem utf8Bytes_lt_256 (s : String) : ∀ x ∈ utf8Bytes s, x < 256 := by
  intro x hx
  simp only [utf8Bytes, List.mem_map] at hx
  obtain ⟨u, _, rfl⟩ := hx
  exact u.toNat_lt

theorem pairListAux_length (a : Nat) (l : List Nat) :
    (pairListAux a l).length = l.length := by
  induction l generalizing a with
  | nil => rfl
  | cons b rest ih => simp [pairListAux, ih]

theorem pairList_length (t : List Nat) : (pairList t).length = t.length - 1 := by
  cases t with
  | nil => rfl
  | cons a rest => simp [pairList, pairListAux_length]

theorem pairList_cons_cons (a b : Nat) (rest : List Nat) :
    pairList (a :: b :: rest) = (a, b) :: pairList (b :: rest) := rfl

theorem mem_pairList_cons {q : Nat × Nat} {l : List Nat} (x : Nat)
    (h : q ∈ pairList l) : q ∈ pairList (x :: l) := by
  cases l with
  | nil => simp [pairList] at h
  | cons a rest =>
    rw [pairList_cons_cons]
    exact List.mem_cons_of_mem _ h

theorem pairListAux_mem {q : Nat × Nat} {a : Nat} {l : List Nat}
    (h : q ∈ pairListAux a l) : (q.1 = a ∨ q.1 ∈ l) ∧ q.2 ∈ l := by
  induction l generalizing a with
  | nil => simp [pairListAux] at h
  | cons b rest ih =>
    simp only [pairListAux, List.mem_cons] at h
    rcases h with h | h
    · subst h
      simp
    · rcases ih h with ⟨h1, h2⟩
      refine ⟨?_, List.mem_cons_of_mem _ h2⟩
      rcases h1 with h1 | h1
      · exact Or.inr (by simp [h1])
      · exact Or.inr (List.mem_cons_of_mem _ h1)

theorem pairList_mem_components {q : Nat × Nat} {t : List Nat}
    (h : q ∈ pairList t) : q.1 ∈ t ∧ q.2 ∈ t := by
  cases t with
  | nil => simp [pairList] at h
  | cons a rest =>
    rcases pairListAux_mem h with ⟨h1, h2⟩
    refine ⟨?_, List.mem_cons_of_mem _ h2⟩
    rcases h1 with h1 | h1
    · simp [h1]
    · exact List.mem_cons_of_mem _ h1

/-! Facts about one dict update (`bump`). -/

theorem lookupA_bump (acc : List ((Nat × Nat) × Nat)) (p q : Nat × Nat) :
    lookupA (bump acc p) q =
      if q = p then some ((lookupA acc p).getD 0 + 1) else lookupA acc q := by
  induction acc with
  | nil =>
    by_cases hqp : q = p
    · subst hqp
      simp [bump, lookupA]
    · have hpq : ¬ p = q := fun h => hqp h.symm
      simp [bump, lookupA, hqp, hpq]
  | cons kc rest ih =>
    obtain ⟨k, c⟩ := kc
    by_cases hkp : k = p
    · subst hkp
      by_cases hqk : q = k
      · subst hqk
        simp [bump, lookupA]
      · have hkq : ¬ k = q := fun h => hqk h.symm
        simp [bump, lookupA, hqk, hkq]
    · by_cases hqk : q = k
      · subst hqk
        simp [bump, lookupA, hkp]
      · have hkq : ¬ k = q := fun h => hqk h.symm
        simp [bump, lookupA, hkp, hkq, hqk, ih]

theorem keysA_bump (acc : List ((Nat × Nat) × Nat)) (p : Nat × Nat) :
    keysA (bump acc p) =
      if p ∈ keysA acc then keysA acc else keysA acc ++ [p] := by
  induction acc with
  | nil => simp [bump, keysA]
  | cons kc rest ih =>
    obtain ⟨k, c⟩ := kc
    by_cases hkp : k = p
    · subst hkp
      simp [bump, keysA]
    · have hpk : ¬ p = k := fun h => hkp h.symm
      simp only [bump, if_neg hkp, keysA, List.map_cons] at ih ⊢
      rw [ih]
      by_cases hp : p ∈ List.map Prod.fst rest
      · simp [hp, hpk]
      · simp [hp, hpk]

theorem sumVals_bump (acc : List ((Nat × Nat) × Nat)) (p : Nat × Nat) :
    sumVals (bump acc p) = sumVals acc + 1 := by
  induction acc with
  | nil => simp [bump, sumVals]
  | cons kc rest ih =>
    obtain ⟨k, c⟩ := kc
    by_cases hkp : k = p
    · subst hkp
      simp [bump, sumVals]
      omega
    · simp [bump, hkp, sumVals] at ih ⊢
      omega

/-! Facts about the folded dict build in `count_pairs`. -/

theorem sumVals_foldl (ps : List (Nat × Nat)) :
    ∀ acc, sumVals (ps.foldl bump acc) = sumVals acc + ps.length := by
  induction ps with
  | nil => intro acc; simp
  | cons p ps ih =>
    intro acc
    simp only [List.foldl_cons, ih, sumVals_bump, List.length_cons]
    omega

theorem lookupA_foldl_some (ps : List (Nat × Nat)) :
    ∀ acc q v, lookupA acc q = some v →
      lookupA (ps.foldl bump acc) q = some (v + countOcc q ps) := by
  induction ps with
  | nil =>
    intro acc q v h
    simpa [countOcc] using h
  | cons p ps ih =>
    intro acc q v h
    simp only [List.foldl_cons]
    by_cases hqp : q = p
    · subst hqp
      have h2 : lookupA (bump acc q) q = some (v + 1) := by
        rw [lookupA_bump]
        simp [h]
      rw [ih _ _ _ h2]
      have : v + 1 + countOcc q ps = v + countOcc q (q :: ps) := by
        simp [countOcc]
        omega
      rw [this]
    · have hpq : ¬ p = q := fun hh => hqp hh.symm
      have h2 : lookupA (bump acc p) q = some v := by
        rw [lookupA_bump]
        simp [hqp, h]
      rw [ih _ _ _ h2]
      simp [countOcc, hpq]

theorem lookupA_foldl_none (ps : List (Nat × Nat)) :
    ∀ acc q, lookupA acc q = none →
      lookupA (ps.foldl bump acc) q =
        if q ∈ ps then some (countOcc q ps) else none := by
  induction ps with
  | nil =>
    intro acc q h
    simpa using h
  | cons p ps ih =>
    intro acc q h
    simp only [List.foldl_cons]
    by_cases hqp : q = p
    · subst hqp
      have h2 : lookupA (bump acc q) q = some 1 := by
        rw [lookupA_bump]
        simp [h]
      rw [lookupA_foldl_some ps _ _ _ h2]
      simp [countOcc]
    · have hpq : ¬ p = q := fun hh => hqp hh.symm
      have h2 : lookupA (bump acc p) q = none := by
        rw [lookupA_bump]
        simp [hqp, h]
      rw [ih _ _ h2]
      simp [List.mem_cons, hqp, countOcc, hpq]

theorem count_pairs_lookup_mem {t : List Nat} {q : Nat × Nat}
    (h : q ∈ pairList t) :
    lookupA (count_pairs t) q = some (countOcc q (pairList t)) := by
  have h2 := lookupA_foldl_none (pairList t) [] q rfl
  rw [count_pairs]
  rw [h2, if_pos h]

theorem count_pairs_lookup_not_mem {t : List Nat} {q : Nat × Nat}
    (h : q ∉ pairList t) : lookupA (count_pairs t) q = none := by
  have h2 := lookupA_foldl_none (pairList t) [] q rfl
  rw [count_pairs]
  rw [h2, if_neg h]

theorem lookupA_isSome_mem {l : List ((Nat × Nat) × Nat)} {q : Nat × Nat} {v : Nat}
    (h : lookupA l q = some v) : (q, v) ∈ l := by
  induction l with
  | nil => simp [lookupA] at h
  | cons kc rest ih =>
    obtain ⟨k, c⟩ := kc
    by_cases hkq : k = q
    · subst hkq
      simp [lookupA] at h
      subst h
      exact List.mem_cons_self _ _
    · simp only [lookupA, if_neg hkq] at h
      exact List.mem_cons_of_mem _ (ih h)

/-! Key order of the folded dict: first-insertion order. -/

theorem newKeys_congr (ps : List (Nat × Nat)) :
    ∀ s1 s2, (∀ x, x ∈ s1 ↔ x ∈ s2) → newKeys s1 ps = newKeys s2 ps := by
  induction ps with
  | nil => intro s1 s2 _; rfl
  | cons p ps ih =>
    intro s1 s2 hs
    simp only [newKeys]
    by_cases hp : p ∈ s1
    · rw [if_pos hp, if_pos ((hs p).mp hp), ih _ _ hs]
    · rw [if_neg hp, if_neg (fun hh => hp ((hs p).mpr hh))]
      rw [ih (p :: s1) (p :: s2) (by intro x; simp [List.mem_cons, hs x])]

theorem keysA_foldl (ps : List (Nat × Nat)) :
    ∀ acc, keysA (ps.foldl bump acc) = keysA acc ++ newKeys (keysA acc) ps := by
  induction ps with
  | nil => intro acc; simp [newKeys]
  | cons p ps ih =>
    intro acc
    simp only [List.foldl_cons, newKeys]
    by_cases hp : p ∈ keysA acc
    · rw [ih, keysA_bump, if_pos hp, if_pos hp]
    · rw [ih, keysA_bump, if_neg hp, if_neg hp]
      rw [newKeys_congr ps (keysA acc ++ [p]) (p :: keysA acc)
        (by intro x; simp [List.mem_cons, List.mem_append, or_comm])]
      simp

theorem newKeys_mem (ps : List (Nat × Nat)) :
    ∀ seen q, q ∈ newKeys seen ps → q ∉ seen ∧ q ∈ ps := by
  induction ps with
  | nil => intro seen q h; simp [newKeys] at h
  | cons p ps ih =>
    intro seen q h
    simp only [newKeys] at h
    by_cases hp : p ∈ seen
    · rw [if_pos hp] at h
      rcases ih seen q h with ⟨h1, h2⟩
      exact ⟨h1, List.mem_cons_of_mem _ h2⟩
    · rw [if_neg hp] at h
      rcases List.mem_cons.mp h with h | h
      · subst h
        exact ⟨hp, List.mem_cons_self _ _⟩
      · rcases ih _ q h with ⟨h1, h2⟩
        exact ⟨fun hh => h1 (List.mem_cons_of_mem p hh), List.mem_cons_of_mem _ h2⟩

theorem pairwise_mem_imp {R S : (Nat × Nat) → (Nat × Nat) → Prop} :
    ∀ {l : List (Nat × Nat)}, l.Pairwise R →
      (∀ a ∈ l, ∀ b ∈ l, R a b → S a b) → l.Pairwise S := by
  intro l hl
  induction hl with
  | nil => intro _; exact List.Pairwise.nil
  | cons hr _ ih =>
    intro hmem
    refine List.Pairwise.cons ?_ (ih ?_)
    · intro b hb
      exact hmem _ (List.mem_cons_self _ _) b (List.mem_cons_of_mem _ hb) (hr b hb)
    · intro a ha b hb hab
      exact hmem a (List.mem_cons_of_mem _ ha) b (List.mem_cons_of_mem _ hb) hab

theorem firstIdx_cons_ne {q p : Nat × Nat} (ps : List (Nat × Nat))
    (h : ¬ p = q) : firstIdx q (p :: ps) = firstIdx q ps + 1 := by
  simp [firstIdx, h]

theorem newKeys_pairwise (ps : List (Nat × Nat)) :
    ∀ seen, (newKeys seen ps).Pairwise
      (fun a b => firstIdx a ps < firstIdx b ps) := by
  induction ps with
  | nil => intro seen; simp [newKeys]
  | cons p ps ih =>
    intro seen
    simp only [newKeys]
    by_cases hp : p ∈ seen
    · rw [if_pos hp]
      refine pairwise_mem_imp (ih seen) ?_
      intro a ha b hb hab
      have ha2 : a ∉ seen := (newKeys_mem ps seen a ha).1
      have hb2 : b ∉ seen := (newKeys_mem ps seen b hb).1
      have hpa : ¬ p = a := fun hh => ha2 (hh ▸ hp)
      have hpb : ¬ p = b := fun hh => hb2 (hh ▸ hp)
      rw [firstIdx_cons_ne ps hpa, firstIdx_cons_ne ps hpb]
      omega
    · rw [if_neg hp]
      refine List.Pairwise.cons ?_ ?_
      · intro b hb
        have hb2 := (newKeys_mem ps (p :: seen) b hb).1
        have hpb : ¬ p = b := fun hh => hb2 (hh ▸ List.mem_cons_self p seen)
        rw [firstIdx_cons_ne ps hpb]
        simp [firstIdx]
      · refine pairwise_mem_imp (ih (p :: seen)) ?_
        intro a ha b hb hab
        have ha2 := (newKeys_mem ps (p :: seen) a ha).1
        have hb2 := (newKeys_mem ps (p :: seen) b hb).1
        have hpa : ¬ p = a := fun hh => ha2 (hh ▸ List.mem_cons_self p seen)
        have hpb : ¬ p = b := fun hh => hb2 (hh ▸ List.mem_cons_self p seen)
        rw [firstIdx_cons_ne ps hpa, firstIdx_cons_ne ps hpb]
        omega

theorem count_pairs_keys (t : List Nat) :
    keysA (count_pairs t) = newKeys [] (pairList t) := by
  rw [count_pairs, keysA_foldl]
  rfl

theorem count_pairs_keys_pairwise (t : List Nat) :
    (keysA (count_pairs t)).Pairwise
      (fun a b => firstIdx a (pairList t) < firstIdx b (pairList t)) := by
  rw [count_pairs_keys]
  exact newKeys_pairwise (pairList t) []

theorem count_pairs_mem_keys {t : List Nat} {q : Nat × Nat} :
    q ∈ keysA (count_pairs t) ↔ q ∈ pairList t := by
  constructor
  · intro h
    rw [count_pairs_keys] at h
    exact (newKeys_mem (pairList t) [] q h).2
  · intro h
    have h2 := count_pairs_lookup_mem h
    have h3 := lookupA_isSome_mem h2
    simpa [keysA] using List.mem_map_of_mem Prod.fst h3

/-! Python's first-maximum selection. -/

theorem lookupA_of_mem_nodup {l : List ((Nat × Nat) × Nat)} {q : Nat × Nat} {v : Nat}
    (hnd : (keysA l).Nodup) (h : (q, v) ∈ l) : lookupA l q = some v := by
  induction l with
  | nil => simp at h
  | cons kc rest ih =>
    obtain ⟨k, c⟩ := kc
    simp only [keysA, List.map_cons, List.nodup_cons] at hnd
    rcases List.mem_cons.mp h with h | h
    · injection h with hq hv
      subst hq
      subst hv
      simp [lookupA]
    · have hkq : ¬ k = q := by
        intro hh
        subst hh
        exact hnd.1 (List.mem_map_of_mem Prod.fst h)
      simp only [lookupA, if_neg hkq]
      exact ih hnd.2 h

theorem pickBest_decomp (rest : List ((Nat × Nat) × Nat)) :
    ∀ (p : Nat × Nat) (c : Nat),
      ∃ L1 cb L2, (p, c) :: rest = L1 ++ (pickBest p c rest, cb) :: L2 ∧
        (∀ x ∈ L1, x.2 < cb) ∧ (∀ x ∈ L2, x.2 ≤ cb) := by
  induction rest with
  | nil =>
    intro p c
    exact ⟨[], c, [], by simp [pickBest], by simp, by simp⟩
  | cons qd rest ih =>
    obtain ⟨q, d⟩ := qd
    intro p c
    by_cases hcd : c < d
    · have hbest : pickBest p c ((q, d) :: rest) = pickBest q d rest := by
        simp [pickBest, hcd]
      obtain ⟨L1, cb, L2, heq, h1, h2⟩ := ih q d
      rw [hbest]
      cases L1 with
      | nil =>
        rw [List.nil_append] at heq
        injection heq with hqd hrest
        have hcb : d = cb := congrArg Prod.snd hqd
        refine ⟨[(p, c)], cb, L2, ?_, ?_, h2⟩
        · rw [List.singleton_append, ← hqd, hrest]
        · intro x hx
          rcases List.mem_singleton.mp hx with rfl
          rw [show ((p, c) : (Nat × Nat) × Nat).2 = c from rfl, ← hcb]
          exact hcd
      | cons x L1 =>
        rw [List.cons_append] at heq
        injection heq with hx hrest
        have hdcb : d < cb := by
          have := h1 x (List.mem_cons_self _ _)
          rw [← hx] at this
          exact this
        refine ⟨(p, c) :: (q, d) :: L1, cb, L2, ?_, ?_, h2⟩
        · rw [List.cons_append, List.cons_append]
          conv_lhs => rw [hrest]
        · intro y hy
          rcases List.mem_cons.mp hy with rfl | hy
          · exact Nat.lt_trans hcd hdcb
          rcases List.mem_cons.mp hy with rfl | hy
          · exact hdcb
          · exact h1 y (List.mem_cons_of_mem _ hy)
    · have hbest : pickBest p c ((q, d) :: rest) = pickBest p c rest := by
        simp [pickBest, hcd]
      obtain ⟨L1, cb, L2, heq, h1, h2⟩ := ih p c
      rw [hbest]
      cases L1 with
      | nil =>
        rw [List.nil_append] at heq
        injection heq with hpc hrest
        have hcb : c = cb := congrArg Prod.snd hpc
        refine ⟨[], cb, (q, d) :: L2, ?_, by simp, ?_⟩
        · rw [List.nil_append, ← hpc, hrest]
        · intro y hy
          rcases List.mem_cons.mp hy with rfl | hy
          · rw [show ((q, d) : (Nat × Nat) × Nat).2 = d from rfl, ← hcb]
            exact Nat.le_of_not_lt hcd
          · exact h2 y hy
      | cons x L1 =>
        rw [List.cons_append] at heq
        injection heq with hx hrest
        have hccb : c < cb := by
          have := h1 x (List.mem_cons_self _ _)
          rw [← hx] at this
          exact this
        refine ⟨(p, c) :: (q, d) :: L1, cb, L2, ?_, ?_, h2⟩
        · rw [List.cons_append, List.cons_append]
          conv_lhs => rw [hrest]
        · intro y hy
          rcases List.mem_cons.mp hy with rfl | hy
          · exact hccb
          rcases List.mem_cons.mp hy with rfl | hy
          · exact Nat.lt_of_le_of_lt (Nat.le_of_not_lt hcd) hccb
          · exact h1 y (List.mem_cons_of_mem _ hy)

/-- Core characterisation of `max(counts, key=lambda p: counts[p])` over
`count_pairs`: the selection is a pair of maximal count, and among the
pairs of equal maximal count it is the one whose first occurrence in the
scanned pair list is the earliest. -/
theorem maxPair_spec {t : List Nat} {best : Nat × Nat}
    (h : maxPair (count_pairs t) = some best) :
    best ∈ pairList t ∧
      (∀ q ∈ pairList t, countOcc q (pairList t) ≤ countOcc best (pairList t)) ∧
      (∀ q ∈ pairList t, countOcc q (pairList t) = countOcc best (pairList t) →
        q ≠ best → firstIdx best (pairList t) < firstIdx q (pairList t)) := by
  rcases hcp : count_pairs t with _ | ⟨⟨p, c⟩, rest⟩
  · rw [hcp] at h
    simp [maxPair] at h
  · rw [hcp] at h
    simp only [maxPair, Option.some.injEq] at h
    obtain ⟨L1, cb, L2, heq, h1, h2⟩ := pickBest_decomp rest p c
    rw [h] at heq
    have hpw := count_pairs_keys_pairwise t
    rw [hcp] at hpw
    have hnd : (keysA ((p, c) :: rest)).Nodup := by
      refine pairwise_mem_imp hpw ?_
      intro a _ b _ hab heqab
      subst heqab
      omega
    have hmemL : (best, cb) ∈ (p, c) :: rest := by
      rw [heq]
      exact List.mem_append_right _ (List.mem_cons_self _ _)
    have hlkb : lookupA ((p, c) :: rest) best = some cb :=
      lookupA_of_mem_nodup hnd hmemL
    have hbmem : best ∈ pairList t := by
      refine count_pairs_mem_keys.mp ?_
      rw [hcp]
      exact List.mem_map_of_mem Prod.fst hmemL
    have hcb : cb = countOcc best (pairList t) := by
      have h3 := count_pairs_lookup_mem hbmem
      rw [hcp, hlkb] at h3
      exact Option.some_inj.mp h3
    refine ⟨hbmem, ?_, ?_⟩
    · intro q hq
      have h3 := count_pairs_lookup_mem hq
      rw [hcp] at h3
      have h4 := lookupA_isSome_mem h3
      rw [heq] at h4
      rcases List.mem_append.mp h4 with h4 | h4
      · have hlt : countOcc q (pairList t) < cb := h1 _ h4
        omega
      · rcases List.mem_cons.mp h4 with h4 | h4
        · injection h4 with h5 h6
          rw [h5]
        · have hle : countOcc q (pairList t) ≤ cb := h2 _ h4
          omega
    · intro q hq hqc hqb
      have h3 := count_pairs_lookup_mem hq
      rw [hcp] at h3
      have h4 := lookupA_isSome_mem h3
      rw [heq] at h4
      rcases List.mem_append.mp h4 with h4 | h4
      · have hlt : countOcc q (pairList t) < cb := h1 _ h4
        omega
      · rcases List.mem_cons.mp h4 with h4 | h4
        · injection h4 with h5 h6
          exact absurd h5 hqb
        · have hq2 : q ∈ List.map Prod.fst L2 := List.mem_map_of_mem Prod.fst h4
          have hpw2 := hpw
          rw [heq] at hpw2
          have hpw3 : (List.map Prod.fst L1 ++ best :: List.map Prod.fst L2).Pairwise
              (fun a b => firstIdx a (pairList t) < firstIdx b (pairList t)) := by
            simpa [keysA] using hpw2
          have h5 := (List.pairwise_append.mp hpw3).2.1
          exact (List.pairwise_cons.mp h5).1 q hq2

/-- C1 (confirmed): in training, the pair selected at each iteration is of
maximal count, and among the adjacent pairs of equal maximal count it is
the one whose left-to-right first occurrence in the current sequence is
earliest — first-insertion order into the frequency mapping. Selection is
a pure function of the sequence, hence deterministic. -/
theorem claim1_trainer_tiebreak {t : List Nat} {best : Nat × Nat}
    (h : maxPair (count_pairs t) = some best) :
    best ∈ pairList t ∧
      (∀ q ∈ pairList t, countOcc q (pairList t) ≤ countOcc best (pairList t)) ∧
      (∀ q ∈ pairList t, countOcc q (pairList t) = countOcc best (pairList t) →
        q ≠ best → firstIdx best (pairList t) < firstIdx q (pairList t)) :=
  maxPair_spec h

/-- Witness for C1 on the tied sequence `[1, 2, 2, 1]`: the pairs
`(1, 2)`, `(2, 2)`, `(2, 1)` all occur once; the earliest, `(1, 2)`, is
selected. -/
theorem claim1_trainer_tiebreak_witness :
    firstIdx (1, 2) (pairList [1, 2, 2, 1]) < firstIdx (2, 2) (pairList [1, 2, 2, 1]) :=
  (@claim1_trainer_tiebreak [1, 2, 2, 1] (1, 2) (by decide)).2.2
    (2, 2) (by decide) (by decide) (by decide)

/-- C6 (confirmed): the counts of `count_pairs t` sum to `len(t) - 1` in
truncated `Nat` subtraction, i.e. `max(0, len(t) - 1)`; sequences of
length 0 or 1 give the empty mapping; a pair has an entry exactly when it
occurs adjacently; and `count_pairs [1,2,1,2]` is the two-entry mapping
`(1,2) ↦ 2, (2,1) ↦ 1` in first-insertion order. -/
theorem claim6_count_pairs :
    (∀ t : List Nat, sumVals (count_pairs t) = t.length - 1) ∧
      count_pairs [] = [] ∧ (∀ x : Nat, count_pairs [x] = []) ∧
      (∀ (t : List Nat) (q : Nat × Nat),
        q ∈ keysA (count_pairs t) ↔ q ∈ pairList t) ∧
      count_pairs [1, 2, 1, 2] = [((1, 2), 2), ((2, 1), 1)] := by
  refine ⟨?_, rfl, fun x => rfl, fun t q => count_pairs_mem_keys, by decide⟩
  intro t
  rw [count_pairs, sumVals_foldl]
  simp [sumVals, pairList_length]

/-! Early-stop and length facts about the trainer. -/

theorem pairList_short {t : List Nat} (h : t.length < 2) : pairList t = [] := by
  cases t with
  | nil => rfl
  | cons a rest =>
    cases rest with
    | nil => rfl
    | cons b r =>
      simp only [List.length_cons] at h
      omega

theorem count_pairs_short {t : List Nat} (h : t.length < 2) :
    count_pairs t = [] := by
  rw [count_pairs, pairList_short h]
  rfl

theorem trainAux_stop {t : List Nat} (h : count_pairs t = []) :
    ∀ (n : Nat) (m : List (Nat × Nat)), trainAux n t m = (t, m) := by
  intro n m
  cases n with
  | zero => rfl
  | succ n => simp [trainAux, h]

theorem trainAux_merges_length :
    ∀ (n : Nat) (t : List Nat) (m : List (Nat × Nat)),
      (trainAux n t m).2.length ≤ m.length + n := by
  intro n
  induction n with
  | zero => intro t m; simp [trainAux]
  | succ n ih =>
    intro t m
    rcases hcp : count_pairs t with _ | ⟨⟨p, c⟩, rest⟩
    · rw [trainAux_stop hcp]
      exact Nat.le_add_right _ _
    · simp only [trainAux, hcp]
      have := ih (rewriteLoop (pickBest p c rest) (256 + (m ++ [pickBest p c rest]).length - 1) t 0 [])
        (m ++ [pickBest p c rest])
      simp at this ⊢
      omega

/-- C9 (confirmed): training degrades gracefully — budget 0 gives the
empty table; a corpus of fewer than 2 byte tokens gives the empty table
(in particular the empty text with budget 5); and the result never
exceeds the budget. The embedding is a total function, matching the
absence of exceptions in the source. -/
theorem claim9_graceful :
    (∀ text : String, build_vocab text 0 = []) ∧
      (∀ (text : String) (n : Nat),
        (utf8Bytes text).length < 2 → build_vocab text n = []) ∧
      build_vocab (r"") 5 = [] ∧
      (∀ (text : String) (n : Nat), (build_vocab text n).length ≤ n) := by
  refine ⟨fun text => rfl, ?_, ?_, ?_⟩
  · intro text n h
    rw [build_vocab, trainAux_stop (count_pairs_short h)]
  · rw [build_vocab, trainAux_stop (count_pairs_short (by decide))]
  · intro text n
    have := trainAux_merges_length n (utf8Bytes text) []
    simpa [build_vocab] using this

/-- Witness for C9 instantiating the short-corpus hypothesis at the
one-byte text `a` with budget 3. -/
theorem claim9_graceful_witness : build_vocab (r"a") 3 = [] :=
  claim9_graceful.2.1 (r"a") 3 (by decide)

/-! Facts about one positional-greedy pass. -/

theorem mergePassAux_length_le (mr : (Nat × Nat) → Option Nat) :
    ∀ (l : List Nat) (a : Nat), (mergePassAux mr a l).1.length ≤ l.length + 1 := by
  intro l
  induction l with
  | nil => intro a; simp [mergePassAux]
  | cons b rest ih =>
    intro a
    rcases hmr : mr (a, b) with _ | r
    · simp only [mergePassAux, hmr]
      have := ih b
      simp only [List.length_cons]
      omega
    · simp only [mergePassAux, hmr]
      have := ih (256 + r)
      simp only [List.length_cons]
      omega

theorem mergePassAux_changed_le (mr : (Nat × Nat) → Option Nat) :
    ∀ (l : List Nat) (a : Nat), (mergePassAux mr a l).2 = true →
      (mergePassAux mr a l).1.length ≤ l.length := by
  intro l
  induction l with
  | nil => intro a h; simp [mergePassAux] at h
  | cons b rest ih =>
    intro a h
    rcases hmr : mr (a, b) with _ | r
    · rw [mergePassAux, hmr] at h ⊢
      simp only at h ⊢
      have := ih b h
      simp only [List.length_cons]
      omega
    · rw [mergePassAux, hmr]
      simp only [List.length_cons]
      have := mergePassAux_length_le mr rest (256 + r)
      omega

theorem mergePassAux_ne_nil (mr : (Nat × Nat) → Option Nat) :
    ∀ (l : List Nat) (a : Nat), (mergePassAux mr a l).1 ≠ [] := by
  intro l
  induction l with
  | nil => intro a; simp [mergePassAux]
  | cons b rest ih =>
    intro a
    rcases hmr : mr (a, b) with _ | r
    · simp [mergePassAux, hmr]
    · simp only [mergePassAux, hmr]
      exact ih (256 + r)

theorem mergePassAux_unchanged (mr : (Nat × Nat) → Option Nat) :
    ∀ (l : List Nat) (a : Nat), (mergePassAux mr a l).2 = false →
      (mergePassAux mr a l).1 = a :: l := by
  intro l
  induction l with
  | nil => intro a _; simp [mergePassAux]
  | cons b rest ih =>
    intro a h
    rcases hmr : mr (a, b) with _ | r
    · rw [mergePassAux, hmr] at h ⊢
      simp only at h ⊢
      rw [ih b h]
    · rw [mergePassAux, hmr] at h
      simp at h

theorem mergePass_length_le (mr : (Nat × Nat) → Option Nat) (t : List Nat) :
    (mergePass mr t).1.length ≤ t.length := by
  cases t with
  | nil => simp [mergePass]
  | cons a rest =>
    simp only [mergePass, List.length_cons]
    have := mergePassAux_length_le mr rest a
    omega

theorem mergePass_changed_lt (mr : (Nat × Nat) → Option Nat) (t : List Nat)
    (h : (mergePass mr t).2 = true) : (mergePass mr t).1.length < t.length := by
  cases t with
  | nil => simp [mergePass] at h
  | cons a rest =>
    rw [mergePass] at h ⊢
    have := mergePassAux_changed_le mr rest a h
    simp only [List.length_cons]
    omega

theorem mergePass_ne_nil (mr : (Nat × Nat) → Option Nat) (t : List Nat)
    (h : t ≠ []) : (mergePass mr t).1 ≠ [] := by
  cases t with
  | nil => exact absurd rfl h
  | cons a rest => exact mergePassAux_ne_nil mr rest a

theorem mergePass_unchanged (mr : (Nat × Nat) → Option Nat) (t : List Nat)
    (h : (mergePass mr t).2 = false) : (mergePass mr t).1 = t := by
  cases t with
  | nil => simp [mergePass]
  | cons a rest =>
    rw [mergePass] at h ⊢
    exact mergePassAux_unchanged mr rest a h

theorem mergePass_short (mr : (Nat × Nat) → Option Nat) (t : List Nat)
    (h : t.length ≤ 1) : mergePass mr t = (t, false) := by
  cases t with
  | nil => rfl
  | cons a rest =>
    cases rest with
    | nil => rfl
    | cons b r => simp only [List.length_cons] at h; omega

/-! The in-place inner loop of the source computes exactly one
positional-greedy pass of the current suffix. -/

theorem list_drop_getD : ∀ (l : List Nat) (i : Nat), i < l.length →
    l.drop i = l.getD i 0 :: l.drop (i + 1) := by
  intro l
  induction l with
  | nil => intro i h; simp at h
  | cons a rest ih =>
    intro i h
    cases i with
    | zero => simp
    | succ i =>
      simp only [List.drop_succ_cons, List.getD_cons_succ]
      exact ih i (by simp only [List.length_cons] at h; omega)

theorem list_take_getD : ∀ (l : List Nat) (i : Nat), i < l.length →
    l.take (i + 1) = l.take i ++ [l.getD i 0] := by
  intro l
  induction l with
  | nil => intro i h; simp at h
  | cons a rest ih =>
    intro i h
    cases i with
    | zero => simp
    | succ i =>
      simp only [List.take_succ_cons, List.getD_cons_succ, List.cons_append]
      rw [← ih i (by simp only [List.length_cons] at h; omega)]

theorem list_set_erase : ∀ (l : List Nat) (i a : Nat), i + 1 < l.length →
    (l.set i a).eraseIdx (i + 1) = l.take i ++ a :: l.drop (i + 2) := by
  intro l
  induction l with
  | nil => intro i a h; simp at h
  | cons x xs ih =>
    intro i a h
    cases i with
    | zero =>
      simp only [List.set_cons_zero, List.eraseIdx_cons_succ, List.eraseIdx_cons_zero,
        List.take_zero, List.nil_append]
      cases xs with
      | nil => simp at h
      | cons y ys => simp
    | succ i =>
      simp only [List.set_cons_succ, List.eraseIdx_cons_succ, List.take_succ_cons,
        List.drop_succ_cons, List.cons_append]
      rw [ih i a (by simp only [List.length_cons] at h; omega)]

/-- The inner while-loop, started at scan position `i` with flag
`changed`, leaves the first `i` tokens alone and performs one
positional-greedy pass on the rest. -/
theorem innerLoop_spec (mr : (Nat × Nat) → Option Nat) :
    ∀ (n : Nat) (tokens : List Nat) (i : Nat) (changed : Bool),
      tokens.length - i ≤ n →
      innerLoop mr tokens i changed =
        (tokens.take i ++ (mergePass mr (tokens.drop i)).1,
          changed || (mergePass mr (tokens.drop i)).2) := by
  intro n
  induction n with
  | zero =>
    intro tokens i changed hn
    have hle : tokens.length ≤ i := by omega
    rw [innerLoop]
    rw [dif_neg (by omega)]
    rw [List.drop_of_length_le hle, List.take_of_length_le hle]
    simp [mergePass]
  | succ n ih =>
    intro tokens i changed hn
    by_cases hi : i < tokens.length - 1
    · have hi1 : i < tokens.length := by omega
      have hi2 : i + 1 < tokens.length := by omega
      have hdrop : tokens.drop i =
          tokens.getD i 0 :: tokens.getD (i + 1) 0 :: tokens.drop (i + 2) := by
        rw [list_drop_getD tokens i hi1, list_drop_getD tokens (i + 1) hi2]
      rcases hmr : mr (tokens.getD i 0, tokens.getD (i + 1) 0) with _ | r
      · rw [innerLoop, dif_pos hi, hmr]
        show innerLoop mr tokens (i + 1) changed = _
        rw [ih tokens (i + 1) changed (by omega)]
        rw [list_take_getD tokens i hi1]
        rw [hdrop, list_drop_getD tokens (i + 1) hi2]
        simp only [mergePass, mergePassAux, hmr]
        simp [List.append_assoc]
      · rw [innerLoop, dif_pos hi, hmr]
        show innerLoop mr ((tokens.set i (256 + r)).eraseIdx (i + 1)) i true = _
        have hset : (tokens.set i (256 + r)).eraseIdx (i + 1) =
            tokens.take i ++ (256 + r) :: tokens.drop (i + 2) :=
          list_set_erase tokens i (256 + r) hi2
        have hlen : ((tokens.set i (256 + r)).eraseIdx (i + 1)).length
            = tokens.length - 1 := by
          rw [List.length_eraseIdx_of_lt (by rw [List.length_set]; omega),
            List.length_set]
        rw [ih _ i true (by omega)]
        have htk : (tokens.take i).length = i := by
          rw [List.length_take]
          omega
        rw [hset]
        rw [List.take_left' htk, List.drop_left' htk]
        rw [hdrop]
        simp only [mergePass, mergePassAux, hmr]
        simp
    · rw [innerLoop, dif_neg hi]
      have hshort : (tokens.drop i).length ≤ 1 := by
        rw [List.length_drop]
        omega
      rw [mergePass_short mr _ hshort]
      simp [List.take_append_drop]

/-- One pass from the start: the inner loop equals `mergePass`. -/
theorem innerLoop_pass (mr : (Nat × Nat) → Option Nat) (tokens : List Nat) :
    innerLoop mr tokens 0 false = mergePass mr tokens := by
  rw [innerLoop_spec mr tokens.length tokens 0 false (by omega)]
  simp

/-! The outer loop over passes, and its fixed point. -/

theorem mergePassAux_none :
    ∀ (l : List Nat) (a : Nat), mergePassAux (fun _ => none) a l = (a :: l, false) := by
  intro l
  induction l with
  | nil => intro a; rfl
  | cons b rest ih =>
    intro a
    simp [mergePassAux, ih b]

theorem mergePass_none (t : List Nat) :
    mergePass (fun _ => none) t = (t, false) := by
  cases t with
  | nil => rfl
  | cons a rest => exact mergePassAux_none rest a

theorem encodeLoop_spec_eq (mr : (Nat × Nat) → Option Nat) :
    ∀ (fuel : Nat) (t : List Nat), encodeLoop mr fuel t = encodeLoopSpec mr fuel t := by
  intro fuel
  induction fuel with
  | zero => intro t; rfl
  | succ fuel ih =>
    intro t
    rw [encodeLoop, encodeLoopSpec, innerLoop_pass]
    cases hc : (mergePass mr t).2 with
    | false => simp [hc]
    | true => simp [hc, ih]

theorem passCount_spec_eq (mr : (Nat × Nat) → Option Nat) :
    ∀ (fuel : Nat) (t : List Nat), passCountLoop mr fuel t = passCountSpec mr fuel t := by
  intro fuel
  induction fuel with
  | zero => intro t; rfl
  | succ fuel ih =>
    intro t
    rw [passCountLoop, passCountSpec, innerLoop_pass]
    cases hc : (mergePass mr t).2 with
    | false => simp [hc]
    | true => simp [hc, ih]

/-- With fuel exceeding the initial length, the returned sequence is a
fixed point: one more pass would perform zero merges. -/
theorem encodeLoopSpec_fix (mr : (Nat × Nat) → Option Nat) :
    ∀ (fuel : Nat) (t : List Nat), t.length < fuel →
      (mergePass mr (encodeLoopSpec mr fuel t)).2 = false := by
  intro fuel
  induction fuel with
  | zero => intro t h; omega
  | succ fuel ih =>
    intro t h
    rw [encodeLoopSpec]
    cases hc : (mergePass mr t).2 with
    | false =>
      simp only [hc, if_false, Bool.false_eq_true]
      rw [mergePass_unchanged mr t hc]
      exact hc
    | true =>
      simp only [hc, if_true]
      have hlt := mergePass_changed_lt mr t hc
      exact ih _ (by omega)

/-- Bound on the number of passes: at most `max 1 initial_length`. -/
theorem passCountSpec_le (mr : (Nat × Nat) → Option Nat) :
    ∀ (fuel : Nat) (t : List Nat), t.length < fuel →
      passCountSpec mr fuel t ≤ max 1 t.length := by
  intro fuel
  induction fuel with
  | zero => intro t h; omega
  | succ fuel ih =>
    intro t h
    rw [passCountSpec]
    cases hc : (mergePass mr t).2 with
    | false =>
      simp only [hc, if_false, Bool.false_eq_true]
      exact Nat.le_max_left 1 t.length
    | true =>
      simp only [hc, if_true]
      have hlt := mergePass_changed_lt mr t hc
      have ht2 : 2 ≤ t.length := by
        by_contra hcon
        have hshort : t.length ≤ 1 := by omega
        rw [mergePass_short mr t hshort] at hc
        simp at hc
      have htne : t ≠ [] := by
        intro hnil
        rw [hnil] at ht2
        simp at ht2
      have hne := mergePass_ne_nil mr t htne
      have hpos : 0 < (mergePass mr t).1.length := List.length_pos.mpr hne
      have hih := ih (mergePass mr t).1 (by omega)
      rw [Nat.max_eq_right (by omega : 1 ≤ t.length)]
      rw [Nat.max_eq_right (by omega : 1 ≤ (mergePass mr t).1.length)] at hih
      omega

/-- C2 (confirmed): the encoder's inner scan is positional-greedy. The
source's in-place indexed loop (`innerLoop`, with `tokens[i] = new_id`,
`pop(i + 1)` and an unchanged scan position on a hit, `i += 1` on a miss)
computes exactly the recursive positional-greedy pass `mergePass`, which
merges at the scan position precisely when the pair is present in the
lookup — by table membership only — keeps the newly formed token at the
scan position so it can merge again with the next right neighbour in the
same pass, and never compares ranks of other eligible pairs. -/
theorem claim2_positional_greedy (mr : (Nat × Nat) → Option Nat) (tokens : List Nat) :
    innerLoop mr tokens 0 false = mergePass mr tokens :=
  innerLoop_pass mr tokens

/-- An encode run against an empty merge table returns the bytes. -/
theorem bpe_encode_nil_merges (s : String) : bpe_encode s [] = utf8Bytes s := by
  rw [bpe_encode]
  have hmr : merge_rank [] = (fun _ => none) := rfl
  rw [hmr, encodeLoop, innerLoop_pass, mergePass_none]
  simp

/-- C7 (confirmed): with an empty merge table, `bpe_encode` returns
exactly the UTF-8 byte sequence of the text, one token per byte, all ids
below 256; in particular `bpe_encode "hi" [] = [104, 105]`. -/
theorem claim7_empty_table (s : String) :
    bpe_encode s [] = utf8Bytes s ∧ (∀ x ∈ bpe_encode s [], x < 256) ∧
      bpe_encode (r"hi") [] = [104, 105] := by
  refine ⟨bpe_encode_nil_merges s, ?_, ?_⟩
  · intro x hx
    rw [bpe_encode_nil_merges] at hx
    exact utf8Bytes_lt_256 s x hx
  · rw [bpe_encode_nil_merges]
    decide

/-- Witness for C7, discharging the membership hypothesis at byte 104 of
the text `hi`. -/
theorem claim7_empty_table_witness :
    bpe_encode (r"hi") [] = utf8Bytes (r"hi") ∧ (104 : Nat) < 256 :=
  ⟨(claim7_empty_table (r"hi")).1,
    (claim7_empty_table (r"hi")).2.1 104
      (by rw [bpe_encode_nil_merges]; decide)⟩

/-! Range of the ranks stored in the merge lookup, and of output tokens. -/

theorem enumFrom_fst_lt :
    ∀ (l : List (Nat × Nat)) (i : Nat) (x : Nat × (Nat × Nat)),
      x ∈ enumFrom i l → x.1 < i + l.length := by
  intro l
  induction l with
  | nil => intro i x h; simp [enumFrom] at h
  | cons p rest ih =>
    intro i x h
    simp only [enumFrom, List.mem_cons] at h
    rcases h with rfl | h
    · simp
    · have := ih (i + 1) x h
      simp only [List.length_cons]
      omega

theorem rank_foldl_lt (N : Nat) :
    ∀ (l : List (Nat × (Nat × Nat))) (f : (Nat × Nat) → Option Nat),
      (∀ q r, f q = some r → r < N) → (∀ x ∈ l, x.1 < N) →
      ∀ q r,
        (l.foldl (fun f rp => fun q => if q = rp.2 then some rp.1 else f q) f) q
          = some r → r < N := by
  intro l
  induction l with
  | nil => intro f hf _ q r h; exact hf q r h
  | cons x rest ih =>
    intro f hf hl q r h
    refine ih _ ?_ (fun y hy => hl y (List.mem_cons_of_mem _ hy)) q r h
    intro q2 r2 h2
    simp only at h2
    by_cases hq : q2 = x.2
    · rw [if_pos hq] at h2
      have := hl x (List.mem_cons_self _ _)
      rw [← Option.some_inj.mp h2]
      exact this
    · rw [if_neg hq] at h2
      exact hf q2 r2 h2

theorem merge_rank_lt (merges : List (Nat × Nat)) :
    ∀ q r, merge_rank merges q = some r → r < merges.length := by
  intro q r h
  refine rank_foldl_lt merges.length (enumFrom 0 merges) (fun _ => none)
    (by intro q2 r2 h2; exact absurd h2 (by simp)) ?_ q r h
  intro x hx
  have := enumFrom_fst_lt merges 0 x hx
  omega

theorem mergePassAux_bound (mr : (Nat × Nat) → Option Nat) (N : Nat)
    (hmr : ∀ q r, mr q = some r → r < N) :
    ∀ (l : List Nat) (a : Nat), a < 256 + N → (∀ y ∈ l, y < 256 + N) →
      ∀ x ∈ (mergePassAux mr a l).1, x < 256 + N := by
  intro l
  induction l with
  | nil =>
    intro a ha _ x hx
    simp only [mergePassAux, List.mem_singleton] at hx
    rw [hx]
    exact ha
  | cons b rest ih =>
    intro a ha hl x hx
    rcases hmr2 : mr (a, b) with _ | r
    · rw [mergePassAux, hmr2] at hx
      simp only at hx
      rcases List.mem_cons.mp hx with rfl | hx
      · exact ha
      · exact ih b (hl b (List.mem_cons_self _ _))
          (fun y hy => hl y (List.mem_cons_of_mem _ hy)) x hx
    · rw [mergePassAux, hmr2] at hx
      simp only at hx
      refine ih (256 + r) ?_ (fun y hy => hl y (List.mem_cons_of_mem _ hy)) x hx
      have := hmr _ _ hmr2
      omega

theorem mergePass_bound (mr : (Nat × Nat) → Option Nat) (N : Nat)
    (hmr : ∀ q r, mr q = some r → r < N) (t : List Nat)
    (ht : ∀ y ∈ t, y < 256 + N) :
    ∀ x ∈ (mergePass mr t).1, x < 256 + N := by
  cases t with
  | nil => intro x hx; simp [mergePass] at hx
  | cons a rest =>
    exact mergePassAux_bound mr N hmr rest a (ht a (List.mem_cons_self _ _))
      (fun y hy => ht y (List.mem_cons_of_mem _ hy))

theorem encodeLoopSpec_bound (mr : (Nat × Nat) → Option Nat) (N : Nat)
    (hmr : ∀ q r, mr q = some r → r < N) :
    ∀ (fuel : Nat) (t : List Nat), (∀ y ∈ t, y < 256 + N) →
      ∀ x ∈ encodeLoopSpec mr fuel t, x < 256 + N := by
  intro fuel
  induction fuel with
  | zero => intro t ht x hx; exact ht x hx
  | succ fuel ih =>
    intro t ht x hx
    rw [encodeLoopSpec] at hx
    cases hc : (mergePass mr t).2 with
    | false =>
      rw [hc] at hx
      simp only [Bool.false_eq_true, if_false] at hx
      exact mergePass_bound mr N hmr t ht x hx
    | true =>
      rw [hc] at hx
      simp only [if_true] at hx
      exact ih _ (mergePass_bound mr N hmr t ht) x hx

/-- C10 (confirmed): every token id returned by `bpe_encode` with a merge
list of length `N` is below `256 + N` — it is either a raw byte in
`0..255` or a merged id in `256..255+N`; no id at or above `256 + N` ever
appears. -/
theorem claim10_output_range (text : String) (merges : List (Nat × Nat)) :
    ∀ x ∈ bpe_encode text merges, x < 256 + merges.length := by
  intro x hx
  rw [bpe_encode, encodeLoop_spec_eq] at hx
  refine encodeLoopSpec_bound (merge_rank merges) merges.length
    (merge_rank_lt merges) _ (utf8Bytes text) ?_ x hx
  intro y hy
  have := utf8Bytes_lt_256 text y hy
  omega

/-- Witness for C10, discharging the output-membership hypothesis at
token 104 of an encode run of `hi`. -/
theorem claim10_output_range_witness :
    (104 : Nat) < 256 + ([] : List (Nat × Nat)).length :=
  claim10_output_range (r"hi") [] 104
    (by rw [bpe_encode_nil_merges]; decide)

/-- `bpe_encode` returns the exact fixed point at which the source's
`while changed` loop exits: one further pass performs zero merges. -/
theorem bpe_encode_fix (text : String) (merges : List (Nat × Nat)) :
    innerLoop (merge_rank merges) (bpe_encode text merges) 0 false
      = (bpe_encode text merges, false) := by
  rw [innerLoop_pass]
  have h2 : (mergePass (merge_rank merges) (bpe_encode text merges)).2 = false := by
    rw [bpe_encode, encodeLoop_spec_eq]
    exact encodeLoopSpec_fix (merge_rank merges) _ (utf8Bytes text) (by omega)
  have h1 := mergePass_unchanged (merge_rank merges) (bpe_encode text merges) h2
  exact Prod.ext h1 h2

/-- C5 (corrected): each full pass either performs zero merges — and then
the sequence is already the loop's fixed point, so the loop stops — or
strictly reduces the sequence length by at least one; consequently the
loop performs at most `max 1 initial_length` passes. The original bound
`initial_length` fails only for the empty byte sequence, where the loop
body still runs once (see the counterexample). -/
theorem claim5_pass_bound :
    (∀ (mr : (Nat × Nat) → Option Nat) (t : List Nat),
      ((mergePass mr t).2 = true → (mergePass mr t).1.length < t.length) ∧
      ((mergePass mr t).2 = false → (mergePass mr t).1 = t)) ∧
      (∀ (text : String) (merges : List (Nat × Nat)),
        innerLoop (merge_rank merges) (bpe_encode text merges) 0 false
          = (bpe_encode text merges, false) ∧
        bpe_pass_count text merges ≤ max 1 (utf8Bytes text).length) := by
  refine ⟨fun mr t => ⟨mergePass_changed_lt mr t, mergePass_unchanged mr t⟩,
    fun text merges => ⟨bpe_encode_fix text merges, ?_⟩⟩
  rw [bpe_pass_count, passCount_spec_eq]
  exact passCountSpec_le (merge_rank merges) _ (utf8Bytes text) (by omega)

/-- Witness for C5, discharging the changed-pass hypothesis on the
sequence `[104, 105]` with the single merge rule `(104, 105)`. -/
theorem claim5_pass_bound_witness :
    (mergePass (merge_rank [(104, 105)]) [104, 105]).1.length < 2 :=
  (claim5_pass_bound.1 (merge_rank [(104, 105)]) [104, 105]).1 (by decide)

/-- Counterexample to C5 as stated: on the empty text the initial byte
sequence has length 0, yet the source's outer loop body executes once
(one full pass that performs zero merges), so the process does not
complete within `initial_length = 0` passes. -/
theorem claim5_pass_bound_cex :
    bpe_pass_count (r"") [] = 1 ∧ (utf8Bytes (r"")).length = 0 := by
  constructor
  · rw [bpe_pass_count, passCount_spec_eq]
    decide
  · decide

/-! The trainer's rewrite loop computes the non-overlapping replacement. -/

theorem replaceAll_cons_ne (best : Nat × Nat) (nid a : Nat) (l : List Nat)
    (h : ∀ b r, l = b :: r → ¬ (a, b) = best) :
    replaceAll best nid (a :: l) = a :: replaceAll best nid l := by
  cases l with
  | nil => rfl
  | cons b r =>
    show replaceAllAux best nid a (b :: r) = a :: replaceAllAux best nid b r
    cases r with
    | nil =>
      simp only [replaceAllAux]
      rw [if_neg (h b [] rfl)]
    | cons c r2 =>
      simp only [replaceAllAux]
      rw [if_neg (h b (c :: r2) rfl)]

theorem replaceAll_cons_cons_eq (best : Nat × Nat) (nid a b : Nat) (r : List Nat)
    (h : (a, b) = best) :
    replaceAll best nid (a :: b :: r) = nid :: replaceAll best nid r := by
  show replaceAllAux best nid a (b :: r) = _
  cases r with
  | nil =>
    simp only [replaceAllAux]
    rw [if_pos h]
    rfl
  | cons c r2 =>
    simp only [replaceAllAux]
    rw [if_pos h]
    rfl

/-- The indexed rewrite loop, started at position `i` with accumulator
`acc`, appends the non-overlapping replacement of the remaining suffix. -/
theorem rewriteLoop_spec (best : Nat × Nat) (nid : Nat) :
    ∀ (n : Nat) (tokens : List Nat) (i : Nat) (acc : List Nat),
      tokens.length - i ≤ n →
      rewriteLoop best nid tokens i acc
        = acc ++ replaceAll best nid (tokens.drop i) := by
  intro n
  induction n with
  | zero =>
    intro tokens i acc hn
    have hle : tokens.length ≤ i := by omega
    rw [rewriteLoop, dif_neg (by omega), List.drop_of_length_le hle]
    simp [replaceAll]
  | succ n ih =>
    intro tokens i acc hn
    by_cases hi : i < tokens.length
    · rw [rewriteLoop, dif_pos hi]
      by_cases hg : i < tokens.length - 1 ∧
          (tokens.getD i 0, tokens.getD (i + 1) 0) = best
      · rw [if_pos hg]
        have hi2 : i + 1 < tokens.length := by omega
        rw [ih tokens (i + 2) _ (by omega)]
        rw [list_drop_getD tokens i hi, list_drop_getD tokens (i + 1) hi2]
        rw [replaceAll_cons_cons_eq best nid _ _ _ hg.2]
        simp [List.append_assoc]
      · rw [if_neg hg]
        rw [ih tokens (i + 1) _ (by omega)]
        rw [list_drop_getD tokens i hi]
        rw [replaceAll_cons_ne best nid _ _ ?_]
        · simp [List.append_assoc]
        · intro b r hbr heq
          have hlen : (tokens.drop (i + 1)).length = tokens.length - (i + 1) := by
            rw [List.length_drop]
          rw [hbr] at hlen
          simp only [List.length_cons] at hlen
          have hi2 : i + 1 < tokens.length := by omega
          have hdd := list_drop_getD tokens (i + 1) hi2
          rw [hbr] at hdd
          injection hdd with hb _
          exact hg ⟨by omega, by rw [← hb]; exact heq⟩
    · rw [rewriteLoop, dif_neg hi]
      rw [List.drop_of_length_le (by omega)]
      simp [replaceAll]

/-- From position 0 the rewrite loop is exactly the single left-to-right
non-overlapping replacement pass. -/
theorem rewriteLoop_pass (best : Nat × Nat) (nid : Nat) (tokens : List Nat) :
    rewriteLoop best nid tokens 0 [] = replaceAll best nid tokens := by
  rw [rewriteLoop_spec best nid tokens.length tokens 0 [] (by omega)]
  simp

/-- The source training loop equals its specification-level twin. -/
theorem trainAux_eq_spec :
    ∀ (n : Nat) (t : List Nat) (m : List (Nat × Nat)),
      trainAux n t m = trainAuxSpec n t m := by
  intro n
  induction n with
  | zero => intro t m; rfl
  | succ n ih =>
    intro t m
    rcases hcp : count_pairs t with _ | ⟨⟨p, c⟩, rest⟩
    · simp [trainAux, trainAuxSpec, hcp]
    · simp only [trainAux, trainAuxSpec, hcp]
      rw [rewriteLoop_pass]
      have harith : 256 + (m ++ [pickBest p c rest]).length - 1 = 256 + m.length := by
        simp
      rw [harith, ih]

/-- C8 (confirmed): the trainer's sequence rewrite is a single
left-to-right non-overlapping pass — wherever the winning pair starts it
emits the new id and advances two positions, otherwise it copies one
token and advances one — and `train("aaaa", 1)` learns the single rule
`(97, 97)` with resulting id 256 and rewritten sequence `[256, 256]`. -/
theorem claim8_rewrite_pass :
    (∀ (best : Nat × Nat) (nid : Nat) (tokens : List Nat),
      rewriteLoop best nid tokens 0 [] = replaceAll best nid tokens) ∧
      build_vocab (r"aaaa") 1 = [(97, 97)] ∧
      (trainAux 1 (utf8Bytes (r"aaaa")) []).1 = [256, 256] := by
  refine ⟨rewriteLoop_pass, ?_, ?_⟩
  · rw [build_vocab, trainAux_eq_spec]
    decide
  · rw [trainAux_eq_spec]
    decide

/-! Structure of the replacement pass output. -/

theorem replaceAllAux_ne_nil (best : Nat × Nat) (nid : Nat) :
    ∀ (a : Nat) (l : List Nat), replaceAllAux best nid a l ≠ [] := by
  intro a l
  cases l with
  | nil => simp [replaceAllAux]
  | cons b r =>
    cases r with
    | nil =>
      by_cases hab : (a, b) = best
      · simp [replaceAllAux, hab]
      · simp [replaceAllAux, hab]
    | cons c r2 =>
      by_cases hab : (a, b) = best
      · simp [replaceAllAux, hab]
      · simp [replaceAllAux, hab]

theorem replaceAllAux_head (best : Nat × Nat) (nid : Nat) (a : Nat) (l : List Nat) :
    (∃ tl, replaceAllAux best nid a l = a :: tl) ∨
      (∃ tl, replaceAllAux best nid a l = nid :: tl) := by
  cases l with
  | nil => exact Or.inl ⟨[], rfl⟩
  | cons b r =>
    by_cases hab : (a, b) = best
    · refine Or.inr ?_
      cases r with
      | nil => exact ⟨[], by simp [replaceAllAux, hab]⟩
      | cons c r2 => exact ⟨replaceAllAux best nid c r2, by simp [replaceAllAux, hab]⟩
    · refine Or.inl ?_
      cases r with
      | nil => exact ⟨replaceAllAux best nid b [], by simp [replaceAllAux, hab]⟩
      | cons c r2 => exact ⟨replaceAllAux best nid b (c :: r2), by simp [replaceAllAux, hab]⟩

theorem replaceAllAux_step_ne (best : Nat × Nat) (nid a b : Nat) (r : List Nat)
    (hab : ¬ (a, b) = best) :
    replaceAllAux best nid a (b :: r) = a :: replaceAllAux best nid b r := by
  refine replaceAll_cons_ne best nid a (b :: r) ?_
  intro b2 r2 hbr heq
  injection hbr with hb _
  exact hab (by rw [hb]; exact heq)

theorem replaceAllAux_mem (best : Nat × Nat) (nid : Nat) :
    ∀ (n : Nat) (l : List Nat), l.length ≤ n → ∀ (a x : Nat),
      x ∈ replaceAllAux best nid a l → x = nid ∨ x = a ∨ x ∈ l := by
  intro n
  induction n with
  | zero =>
    intro l hl a x hx
    have hnil : l = [] := List.eq_nil_of_length_eq_zero (by omega)
    subst hnil
    simp [replaceAllAux] at hx
    exact Or.inr (Or.inl hx)
  | succ n ih =>
    intro l hl a x hx
    cases l with
    | nil =>
      simp [replaceAllAux] at hx
      exact Or.inr (Or.inl hx)
    | cons b r =>
      by_cases hab : (a, b) = best
      · cases r with
        | nil =>
          simp only [replaceAllAux] at hx
          rw [if_pos hab] at hx
          rcases List.mem_singleton.mp hx with rfl
          exact Or.inl rfl
        | cons c r2 =>
          simp only [replaceAllAux] at hx
          rw [if_pos hab] at hx
          rcases List.mem_cons.mp hx with rfl | hx
          · exact Or.inl rfl
          · rcases ih r2 (by simp only [List.length_cons] at hl; omega) c x hx
              with h | h | h
            · exact Or.inl h
            · refine Or.inr (Or.inr ?_)
              rw [h]
              exact List.mem_cons_of_mem _ (List.mem_cons_self _ _)
            · exact Or.inr (Or.inr
                (List.mem_cons_of_mem _ (List.mem_cons_of_mem _ h)))
      · rw [replaceAllAux_step_ne best nid a b r hab] at hx
        rcases List.mem_cons.mp hx with rfl | hx
        · exact Or.inr (Or.inl rfl)
        · rcases ih r (by simp only [List.length_cons] at hl; omega) b x hx
            with h | h | h
          · exact Or.inl h
          · refine Or.inr (Or.inr ?_)
            rw [h]
            exact List.mem_cons_self _ _
          · exact Or.inr (Or.inr (List.mem_cons_of_mem _ h))

theorem replaceAll_mem (best : Nat × Nat) (nid : Nat) (t : List Nat) :
    ∀ x ∈ replaceAll best nid t, x = nid ∨ x ∈ t := by
  intro x hx
  cases t with
  | nil => simp [replaceAll] at hx
  | cons a rest =>
    rcases replaceAllAux_mem best nid rest.length rest (by omega) a x hx
      with h | h | h
    · exact Or.inl h
    · refine Or.inr ?_
      rw [h]
      exact List.mem_cons_self _ _
    · exact Or.inr (List.mem_cons_of_mem _ h)

theorem replaceAllAux_length (best : Nat × Nat) (nid : Nat) :
    ∀ (n : Nat) (l : List Nat), l.length ≤ n → ∀ a : Nat,
      (replaceAllAux best nid a l).length ≤ l.length + 1 := by
  intro n
  induction n with
  | zero =>
    intro l hl a
    have hnil : l = [] := List.eq_nil_of_length_eq_zero (by omega)
    subst hnil
    simp [replaceAllAux]
  | succ n ih =>
    intro l hl a
    cases l with
    | nil => simp [replaceAllAux]
    | cons b r =>
      by_cases hab : (a, b) = best
      · cases r with
        | nil =>
          simp only [replaceAllAux]
          rw [if_pos hab]
          simp
        | cons c r2 =>
          simp only [replaceAllAux]
          rw [if_pos hab]
          have := ih r2 (by simp only [List.length_cons] at hl; omega) c
          simp only [List.length_cons]
          omega
      · rw [replaceAllAux_step_ne best nid a b r hab]
        have := ih r (by simp only [List.length_cons] at hl; omega) b
        simp only [List.length_cons]
        omega

theorem replaceAll_length (best : Nat × Nat) (nid : Nat) (t : List Nat) :
    (replaceAll best nid t).length ≤ t.length := by
  cases t with
  | nil => simp [replaceAll]
  | cons a rest =>
    have := replaceAllAux_length best nid rest.length rest (by omega) a
    simp only [replaceAll, List.length_cons]
    omega

/-- Adjacent pairs of a replacement pass output: every pair either
involves the fresh id or was already adjacent in the input — and in the
latter case it is not the replaced pair, whose occurrences are all gone. -/
theorem replaceAllAux_pairs (best : Nat × Nat) (nid : Nat) :
    ∀ (n : Nat) (l : List Nat), l.length ≤ n → ∀ (a : Nat) (q : Nat × Nat),
      q ∈ pairList (replaceAllAux best nid a l) →
      q.1 = nid ∨ q.2 = nid ∨ (q ∈ pairList (a :: l) ∧ q ≠ best) := by
  intro n
  induction n with
  | zero =>
    intro l hl a q hq
    have hnil : l = [] := List.eq_nil_of_length_eq_zero (by omega)
    subst hnil
    simp [replaceAllAux, pairList, pairListAux] at hq
  | succ n ih =>
    intro l hl a q hq
    cases l with
    | nil => simp [replaceAllAux, pairList, pairListAux] at hq
    | cons b r =>
      by_cases hab : (a, b) = best
      · cases r with
        | nil =>
          simp only [replaceAllAux] at hq
          rw [if_pos hab] at hq
          simp [pairList, pairListAux] at hq
        | cons c r2 =>
          simp only [replaceAllAux] at hq
          rw [if_pos hab] at hq
          rcases hAux : replaceAllAux best nid c r2 with _ | ⟨h0, tl⟩
          · exact absurd hAux (replaceAllAux_ne_nil best nid c r2)
          · rw [hAux, pairList_cons_cons] at hq
            rcases List.mem_cons.mp hq with rfl | hq
            · exact Or.inl rfl
            · rw [← hAux] at hq
              rcases ih r2 (by simp only [List.length_cons] at hl; omega) c q hq
                with h | h | ⟨h4, h5⟩
              · exact Or.inl h
              · exact Or.inr (Or.inl h)
              · exact Or.inr (Or.inr
                  ⟨mem_pairList_cons a (mem_pairList_cons b h4), h5⟩)
      · rw [replaceAllAux_step_ne best nid a b r hab] at hq
        rcases hAux : replaceAllAux best nid b r with _ | ⟨h0, tl⟩
        · exact absurd hAux (replaceAllAux_ne_nil best nid b r)
        · rw [hAux, pairList_cons_cons] at hq
          rcases List.mem_cons.mp hq with rfl | hq
          · rcases replaceAllAux_head best nid b r with ⟨tl2, he⟩ | ⟨tl2, he⟩
            · rw [hAux] at he
              injection he with hh _
              refine Or.inr (Or.inr ⟨?_, ?_⟩)
              · rw [hh]
                rw [pairList_cons_cons]
                exact List.mem_cons_self _ _
              · rw [hh]
                exact hab
            · rw [hAux] at he
              injection he with hh _
              exact Or.inr (Or.inl hh)
          · rw [← hAux] at hq
            rcases ih r (by simp only [List.length_cons] at hl; omega) b q hq
              with h | h | ⟨h4, h5⟩
            · exact Or.inl h
            · exact Or.inr (Or.inl h)
            · exact Or.inr (Or.inr ⟨mem_pairList_cons a h4, h5⟩)

theorem replaceAll_pairs (best : Nat × Nat) (nid : Nat) (t : List Nat) :
    ∀ q ∈ pairList (replaceAll best nid t),
      q.1 = nid ∨ q.2 = nid ∨ (q ∈ pairList t ∧ q ≠ best) := by
  intro q hq
  cases t with
  | nil => simp [replaceAll, pairList] at hq
  | cons a rest =>
    exact replaceAllAux_pairs best nid rest.length rest (by omega) a q hq

/-- Invariant of the training loop: all tokens are below `256 + m.length`
(fresh ids are really fresh), both components of each learned rule are
below `256 + m.length`, no learned pair occurs adjacently in the current
sequence any more, and the learned rules are pairwise distinct. -/
theorem trainAuxSpec_nodup :
    ∀ (n : Nat) (t : List Nat) (m : List (Nat × Nat)),
      (∀ x ∈ t, x < 256 + m.length) →
      (∀ q ∈ m, q.1 < 256 + m.length ∧ q.2 < 256 + m.length) →
      (∀ q ∈ m, q ∉ pairList t) →
      m.Nodup →
      ((trainAuxSpec n t m).2).Nodup := by
  intro n
  induction n with
  | zero => intro t m _ _ _ hnd; exact hnd
  | succ n ih =>
    intro t m h1 h2 h3 hnd
    rcases hcp : count_pairs t with _ | ⟨⟨p, c⟩, rest⟩
    · simp only [trainAuxSpec, hcp]
      exact hnd
    · simp only [trainAuxSpec, hcp]
      have hbm : maxPair (count_pairs t) = some (pickBest p c rest) := by
        rw [hcp]
        rfl
      have hbmem : pickBest p c rest ∈ pairList t := (maxPair_spec hbm).1
      obtain ⟨hb1, hb2⟩ := pairList_mem_components hbmem
      have hb1lt : (pickBest p c rest).1 < 256 + m.length := h1 _ hb1
      have hb2lt : (pickBest p c rest).2 < 256 + m.length := h1 _ hb2
      have hbnotin : pickBest p c rest ∉ m := fun hmem => h3 _ hmem hbmem
      refine ih _ _ ?_ ?_ ?_ ?_
      · intro x hx
        rcases replaceAll_mem _ _ _ x hx with h | h
        · rw [h]
          simp only [List.length_append, List.length_singleton]
          omega
        · have := h1 x h
          simp only [List.length_append, List.length_singleton]
          omega
      · intro q hq
        simp only [List.length_append, List.length_singleton]
        rcases List.mem_append.mp hq with hq | hq
        · have := h2 q hq
          omega
        · rcases List.mem_singleton.mp hq with rfl
          omega
      · intro q hq hqp
        have hqlt : q.1 < 256 + m.length ∧ q.2 < 256 + m.length := by
          rcases List.mem_append.mp hq with hq | hq
          · exact h2 q hq
          · rcases List.mem_singleton.mp hq with rfl
            exact ⟨hb1lt, hb2lt⟩
        rcases replaceAll_pairs _ _ _ q hqp with h | h | ⟨h4, h5⟩
        · omega
        · omega
        · rcases List.mem_append.mp hq with hq | hq
          · exact h3 q hq h4
          · rcases List.mem_singleton.mp hq with rfl
            exact h5 rfl
      · rw [List.nodup_append]
        refine ⟨hnd, List.nodup_singleton _, ?_⟩
        intro a ha hb
        rcases List.mem_singleton.mp hb with rfl
        exact hbnotin ha

/-- C3 (confirmed): for every corpus text and every merge budget, the
merge table produced by `build_vocab` contains no duplicate pair — the
returned list of rules is `Nodup`, so no `(left, right)` pair occurs at
two distinct positions. -/
theorem claim3_no_duplicate_rules (text : String) (num_merges : Nat) :
    (build_vocab text num_merges).Nodup := by
  rw [build_vocab, trainAux_eq_spec]
  refine trainAuxSpec_nodup num_merges (utf8Bytes text) [] ?_ ?_ ?_ ?_
  · intro x hx
    have := utf8Bytes_lt_256 text x hx
    simp only [List.length_nil]
    omega
  · intro q hq
    simp at hq
  · intro q hq
    simp at hq
  · exact List.nodup_nil

/-! Prefix-stability and monotonicity of training. -/

theorem trainAuxSpec_stop {t : List Nat} (h : count_pairs t = []) :
    ∀ (n : Nat) (m : List (Nat × Nat)), trainAuxSpec n t m = (t, m) := by
  intro n m
  cases n with
  | zero => rfl
  | succ n => simp [trainAuxSpec, h]

theorem trainAuxSpec_extends :
    ∀ (n : Nat) (t : List Nat) (m : List (Nat × Nat)),
      ∃ s, (trainAuxSpec n t m).2 = m ++ s := by
  intro n
  induction n with
  | zero => intro t m; exact ⟨[], by simp [trainAuxSpec]⟩
  | succ n ih =>
    intro t m
    rcases hcp : count_pairs t with _ | ⟨⟨p, c⟩, rest⟩
    · exact ⟨[], by simp [trainAuxSpec, hcp]⟩
    · simp only [trainAuxSpec, hcp]
      obtain ⟨s, hs⟩ := ih
        (replaceAll (pickBest p c rest) (256 + m.length) t) (m ++ [pickBest p c rest])
      exact ⟨[pickBest p c rest] ++ s, by rw [hs, List.append_assoc]⟩

/-- Training is prefix-stable: with budget `n ≥ k`, the first
`m.length + k` rules of the final table are exactly the table after `k`
more iterations. -/
theorem trainAuxSpec_take :
    ∀ (k n : Nat) (t : List Nat) (m : List (Nat × Nat)), k ≤ n →
      ((trainAuxSpec n t m).2).take (m.length + k) = (trainAuxSpec k t m).2 := by
  intro k
  induction k with
  | zero =>
    intro n t m _
    obtain ⟨s, hs⟩ := trainAuxSpec_extends n t m
    rw [hs, Nat.add_zero, List.take_left' rfl]
    rfl
  | succ k ih =>
    intro n t m hkn
    cases n with
    | zero => omega
    | succ n =>
      rcases hcp : count_pairs t with _ | ⟨⟨p, c⟩, rest⟩
      · rw [trainAuxSpec_stop hcp, trainAuxSpec_stop hcp]
        show m.take (m.length + (k + 1)) = m
        exact List.take_of_length_le (by omega)
      · simp only [trainAuxSpec, hcp]
        have harith : m.length + (k + 1) = (m ++ [pickBest p c rest]).length + k := by
          simp only [List.length_append, List.length_singleton]
          omega
        rw [harith]
        exact ih n _ _ (by omega)

/-- The training loop is compositional in its budget. -/
theorem trainAuxSpec_comp :
    ∀ (a b : Nat) (t : List Nat) (m : List (Nat × Nat)),
      trainAuxSpec (a + b) t m
        = trainAuxSpec b (trainAuxSpec a t m).1 (trainAuxSpec a t m).2 := by
  intro a
  induction a with
  | zero =>
    intro b t m
    rw [Nat.zero_add]
    rfl
  | succ a ih =>
    intro b t m
    have harith : a + 1 + b = (a + b) + 1 := by omega
    rw [harith]
    rcases hcp : count_pairs t with _ | ⟨⟨p, c⟩, rest⟩
    · rw [trainAuxSpec_stop hcp, trainAuxSpec_stop hcp]
      exact (trainAuxSpec_stop hcp b m).symm
    · simp only [trainAuxSpec, hcp]
      exact ih b _ _

/-- The rewritten token sequence never grows during training. -/
theorem trainAuxSpec_tokens_le :
    ∀ (n : Nat) (t : List Nat) (m : List (Nat × Nat)),
      (trainAuxSpec n t m).1.length ≤ t.length := by
  intro n
  induction n with
  | zero => intro t m; exact Nat.le_refl _
  | succ n ih =>
    intro t m
    rcases hcp : count_pairs t with _ | ⟨⟨p, c⟩, rest⟩
    · rw [trainAuxSpec_stop hcp]
    · simp only [trainAuxSpec, hcp]
      exact Nat.le_trans (ih _ _) (replaceAll_length _ _ t)

/-- C4 (confirmed): training is prefix-stable and monotone. For budgets
`k ≤ n`, the first `k` rules of the table trained with budget `n` equal
the whole table trained with budget `k`; and at every training step `j`
(the sequence after `j` outer iterations under budget `b` being the state
of `trainAux` after `min j b` steps), the larger budget's rewritten
sequence is never longer than the smaller budget's. -/
theorem claim4_train_monotone (text : String) (k n : Nat) (hkn : k ≤ n) :
    (build_vocab text n).take k = build_vocab text k ∧
      ∀ j : Nat, (trainAux (min j n) (utf8Bytes text) []).1.length ≤
        (trainAux (min j k) (utf8Bytes text) []).1.length := by
  constructor
  · rw [build_vocab, build_vocab, trainAux_eq_spec, trainAux_eq_spec]
    have h := trainAuxSpec_take k n (utf8Bytes text) [] hkn
    simpa using h
  · intro j
    rw [trainAux_eq_spec, trainAux_eq_spec]
    have hle : min j k ≤ min j n := min_le_min (Nat.le_refl j) hkn
    obtain ⟨d, hd⟩ : ∃ d, min j n = min j k + d := ⟨min j n - min j k, by omega⟩
    rw [hd, trainAuxSpec_comp]
    exact trainAuxSpec_tokens_le d _ _

/-- Witness for C4 at budgets 1 ≤ 2 on the text `aaaa`, with training
step 3. -/
theorem claim4_train_monotone_witness :
    (build_vocab (r"aaaa") 2).take 1 = build_vocab (r"aaaa") 1 ∧
      (trainAux (min 3 2) (utf8Bytes (r"aaaa")) []).1.length ≤
        (trainAux (min 3 1) (utf8Bytes (r"aaaa")) []).1.length :=
  ⟨(claim4_train_monotone (r"aaaa") 1 2 (by decide)).1,
    (claim4_train_monotone (r"aaaa") 1 2 (by decide)).2 3⟩

end BPE
